import Mathlib

/-!
Shallow embedding of the overviewer-ng core (coordinate algebra in
`src/liboverviewer/src/coords.rs`, region/world access layer in
`src/liboverviewer/src/world.rs`), together with theorems checking the
specification's claims against it.

Machine integers: the Rust code computes on `i64`.  Coordinates are embedded
as `Int`; the bitwise operations `&`, `<<`, `>>` on `i64` are embedded with
the two's-complement bitwise operations on `Int` (`Int.land`, `<<<`, `>>>`
with an arithmetic right shift), which agree with the `i64` operations
whenever no overflow occurs.  `split`'s mask and arithmetic right shift can
never overflow `i64`, so its embedding agrees with the machine on every
program input with no wrap.  `join`'s `<<` discards bits shifted past the
top and its `+` can overflow, so `join` is embedded with an explicit
two's-complement reinterpretation `wrap64` around both operations.

External collaborators (the `rio` filesystem, the `nbtrs` NBT/region codec,
`flate2`, `lru_time_cache`) are not part of `src/`; they are embedded
abstractly at their interface boundary, following spec section 6, as
function-valued environments (`Env`, `WorldEnv`, `RegionFile`).  Fallible
collaborator calls return `Option` (`none` = `Err`); a Rust `panic!` or
`.unwrap()` failure is a distinguished outcome, not `none`.
-/

namespace Overviewer

/-! ### Levels (`coords.rs`: `Block`, `Section = Succ<Block>`, …) -/

/-- The five coordinate systems of `coords.rs`: `Block`, and the `Succ` chain
`Section = Succ<Block>`, `Chunk = Succ<Section>`, `Region = Succ<Chunk>`,
`World = Succ<Region>`. -/
inductive Level where
  | Block
  | Section
  | Chunk
  | Region
  | World
deriving DecidableEq

/-- The `Succ` structure: `parent l = some p` iff `l = Succ<p>` in the source. -/
def Level.parent : Level → Option Level
  | .Block => none
  | .Section => some .Block
  | .Chunk => some .Section
  | .Region => some .Chunk
  | .World => some .Region

/-- Position of a level in the `Succ` chain (number of `Succ` applications). -/
def Level.rank : Level → Nat
  | .Block => 0
  | .Section => 1
  | .Chunk => 2
  | .Region => 3
  | .World => 4

/-- The `Contained` trait of `coords.rs`, as the inductive closure of its two
impls: `impl<M> Contained<Succ<M>> for Block` and
`impl<M, N: Contained<M>> Contained<Succ<M>> for Succ<N>`. -/
inductive ContainedI : Level → Level → Prop where
  | block (m b : Level) : Level.parent b = some m → ContainedI .Block b
  | step (n m sn sm : Level) : ContainedI n m → Level.parent sn = some n →
      Level.parent sm = some m → ContainedI sn sm

/-- Shallow form of the `Contained` trait: on the five concrete systems the
trait resolution is exactly strict ordering of ranks (proved below in
`containedI_iff`). -/
def Contained (a b : Level) : Prop := a.rank < b.rank

instance (a b : Level) : Decidable (Contained a b) := Nat.decLt _ _

/-- `System::size()` of `coords.rs`: cumulative per-axis bit widths.  Each
non-`Block` level adds its own widths to its parent's (the `contains!` macro):
`Section` adds `(4,4,4)` to `Block`'s `(0,0,0)`, `Chunk` adds `(0,4,0)`,
`Region` adds `(5,0,5)`.  `World::size()` is `panic!("infinity")`, embedded
as `none`. -/
def size : Level → Option (Nat × Nat × Nat)
  | .Block => some (0, 0, 0)
  | .Section => some (4 + 0, 4 + 0, 4 + 0)
  | .Chunk => some (0 + 4, 4 + 4, 0 + 4)
  | .Region => some (5 + 4, 0 + 8, 5 + 4)
  | .World => none

/-! ### Coordinates -/

/-- `Coord` of `coords.rs`: a triple of `i64` components.  The phantom level
markers `El`, `In` become explicit `Level` arguments to `join`/`split`. -/
structure Coord where
  x : Int
  y : Int
  z : Int
deriving DecidableEq

/-- Reinterpret an integer as the `i64` with the same low 64 bits: reduce
mod `2^64` into `[-2^63, 2^63)`.  This is the value an `i64` operation whose
ideal result is out of range produces (Rust `<<` discards the bits shifted
past the top in every build mode; `+` wraps in release builds — a debug
build would panic on an overflowing `+`, and the round-trip theorems below
carry no-overflow hypotheses under which both modes agree with the ideal
sum, while the counterexample overflows only in the panic-free `<<`). -/
def wrap64 (v : Int) : Int := (v + 2 ^ 63) % 2 ^ 64 - 2 ^ 63

/-- `Coord::join` (`coords.rs` lines 230-240): per axis
`self + (other << (size(In) - size(El)))` on `i64`, with the shift and the
addition both reinterpreted through `wrap64`.  The `size()` calls happen
first; a panicking `size()` (only `World`) becomes `none`. -/
def join (el inn : Level) (a b : Coord) : Option Coord :=
  match size inn, size el with
  | some (osizex, osizey, osizez), some (sizex, sizey, sizez) =>
      some ⟨wrap64 (a.x + wrap64 (b.x <<< ((osizex - sizex : Nat) : Int))),
            wrap64 (a.y + wrap64 (b.y <<< ((osizey - sizey : Nat) : Int))),
            wrap64 (a.z + wrap64 (b.z <<< ((osizez - sizez : Nat) : Int)))⟩
  | _, _ => none

/-- `Coord::split` (`coords.rs` lines 285-296): per axis the low part is
`x & ((1 << (osize - size)) - 1)` and the high part is
`x >> (osize - size)` (arithmetic shift on `i64`). -/
def split (el mid : Level) (c : Coord) : Option (Coord × Coord) :=
  match size mid, size el with
  | some (osizex, osizey, osizez), some (sizex, sizey, sizez) =>
      some (⟨Int.land c.x ((1 <<< ((osizex - sizex : Nat) : Int)) - 1),
             Int.land c.y ((1 <<< ((osizey - sizey : Nat) : Int)) - 1),
             Int.land c.z ((1 <<< ((osizez - sizez : Nat) : Int)) - 1)⟩,
            ⟨c.x >>> ((osizex - sizex : Nat) : Int),
             c.y >>> ((osizey - sizey : Nat) : Int),
             c.z >>> ((osizez - sizez : Nat) : Int)⟩)
  | _, _ => none

/-- A `Coord<El,Mid>` whose components lie in the canonical range
`[0, 2^(size(Mid)-size(El)))` per axis — the valid in-container offsets. -/
def lowRange (el mid : Level) (a : Coord) : Bool :=
  match size mid, size el with
  | some (mx, my, mz), some (ex, ey, ez) =>
      decide (0 ≤ a.x) && decide (a.x < (2 : Int) ^ (mx - ex)) &&
      decide (0 ≤ a.y) && decide (a.y < (2 : Int) ^ (my - ey)) &&
      decide (0 ≤ a.z) && decide (a.z < (2 : Int) ^ (mz - ez))
  | _, _ => false

/-- Rust `as u8` on an `i64`: the low 8 bits of the two's-complement value,
i.e. the non-negative residue mod 256. -/
def u8cast (v : Int) : Nat := (v % 256).toNat

/-! ### NBT documents (`nbtrs::Tag`, collaborator, spec section 6) -/

/-- Modelled from the spec: the structured-document decoder (`nbtrs::Tag`) is
an external collaborator; spec section 6 only requires key-path lookup and
typed leaf extraction (integer array).  Variants irrelevant to the claims are
collapsed into `other`. -/
inductive NbtTag where
  | compound (entries : List (String × NbtTag))
  | intArray (data : List Int)
  | other

/-- `Taglike::key`: look up a key in a compound tag. -/
def NbtTag.key : NbtTag → String → Option NbtTag
  | .compound entries, s => (entries.find? (fun e => decide (e.1 = s))).map (fun e => e.2)
  | _, _ => none

/-- `Taglike::as_ints`: typed extraction of an integer-array leaf. -/
def NbtTag.as_ints : NbtTag → Option (List Int)
  | .intArray data => some data
  | _ => none

/-- `world.rs`: `pub struct Chunk(Tag)`. -/
structure Chunk where
  tag : NbtTag

/-- `Chunk::get_heightmap` (`world.rs` lines 199-206):
`tag.key("Level").key("HeightMap").as_ints().unwrap().clone()`.
The `.unwrap()` panic on a missing/mistyped key is embedded as `none`. -/
def Chunk.get_heightmap (c : Chunk) : Option (List Int) :=
  ((c.tag.key "Level").bind (fun t => t.key "HeightMap")).bind NbtTag.as_ints

/-! ### Filename parsing (`Regionset::new`, `world.rs` lines 108-120) -/

/-- Rust `str::split('.')` over the character list: splits at every dot,
keeping empty pieces (structural recursion; `String.splitOn` agrees but does
not reduce in the kernel). -/
def splitOnChar (sep : Char) : List Char → List (List Char)
  | [] => [[]]
  | c :: cs =>
      match splitOnChar sep cs with
      | [] => [[]]
      | cur :: rest => if c = sep then [] :: cur :: rest else (c :: cur) :: rest

/-- The dot-separated components of a file name
(`fname_str.split('.').collect()`). -/
def components (name : String) : List String :=
  (splitOnChar '.' name.toList).map (fun cs => String.mk cs)

/-- Modelled from the spec: `rio`'s `QPath::extension()` is an external
collaborator with `std::path::Path::extension` semantics — the part of the
file name after the last dot, or `none` when there is no dot or the only dot
is the leading one of a hidden file. -/
def extension (name : String) : Option String :=
  match components name with
  | [_] => none
  | ["", _] => none
  | parts => parts.getLast?

/-- All-decimal-digit run accumulator for `from_str_radix(_, 10)`. -/
def parseDigitsAux : List Char → Nat → Option Nat
  | [], acc => some acc
  | c :: cs, acc =>
      if c.isDigit then parseDigitsAux cs (acc * 10 + (c.toNat - 48)) else none

/-- One or more decimal digits, else `none`. -/
def parseDigits : List Char → Option Nat
  | [] => none
  | cs => parseDigitsAux cs 0

/-- Lower bound of `i64`. -/
def i64min : Int := -(2 ^ 63)

/-- Upper bound of `i64`. -/
def i64max : Int := 2 ^ 63 - 1

/-- Whether an integer value fits in `i64`. -/
def i64range (v : Int) : Bool := decide (i64min ≤ v) && decide (v ≤ i64max)

/-- Whether `join`'s per-axis `<< shift` and `+` stay within `i64` for the
given operands: no bits discarded by the shift and no wrapped addition, so
the machine result equals the ideal `a + b * 2^shift`. -/
def joinFits (el inn : Level) (a b : Coord) : Bool :=
  match size inn, size el with
  | some (mx, my, mz), some (ex, ey, ez) =>
      i64range (b.x * (2 : Int) ^ (mx - ex)) &&
      i64range (a.x + b.x * (2 : Int) ^ (mx - ex)) &&
      i64range (b.y * (2 : Int) ^ (my - ey)) &&
      i64range (a.y + b.y * (2 : Int) ^ (my - ey)) &&
      i64range (b.z * (2 : Int) ^ (mz - ez)) &&
      i64range (a.z + b.z * (2 : Int) ^ (mz - ez))
  | _, _ => false

/-- `i64::from_str_radix(s, 10)`: an optional `+`/`-` sign followed by one or
more decimal digits, erroring on any other character, an empty digit run, or
overflow of the `i64` range. -/
def parseI64 (s : String) : Option Int :=
  match s.toList with
  | '-' :: rest =>
      (parseDigits rest).bind
        (fun n => if (-(n : Int)) < i64min then none else some (-(n : Int)))
  | '+' :: rest =>
      (parseDigits rest).bind
        (fun n => if i64max < (n : Int) then none else some (n : Int))
  | cs =>
      (parseDigits cs).bind
        (fun n => if i64max < (n : Int) then none else some (n : Int))

/-- The filename filter of `Regionset::new`: exactly four dot-separated
components, `components[0] == "r"`, `components[3] == "mca"`, and the two
middle components parse as base-10 `i64` (`x`, `z`). -/
def parseRegionFileName (fname : String) : Option (Int × Int) :=
  match components fname with
  | [c0, c1, c2, c3] =>
      if c0 = "r" ∧ c3 = "mca" then
        match parseI64 c1, parseI64 c2 with
        | some x, some z => some (x, z)
        | _, _ => none
      else none
  | _ => none

/-! ### Region files, filesystem environment, LRU cache -/

/-- Opaque file contents handed back by `fs.open` (collaborator). -/
structure RawFile where
  bytes : List Nat

/-- Modelled from the spec: the container codec (`nbtrs::RegionFile`) is an
external collaborator; spec section 6 gives its contract:
`load_entry(x,z) -> Result<EntryBytes>` (here decoded to a tag, `Err`/missing
collapsed to `none` as only `Ok` is inspected by `get_chunk`) and
`entry_timestamp(x,z) -> Option<u32>`. -/
structure RegionFile where
  load_chunk : Nat → Nat → Option NbtTag
  get_chunk_timestamp : Nat → Nat → Option Nat

/-- A region file with no entries, used as a concrete fixture. -/
def emptyRegionFile : RegionFile :=
  ⟨fun _ _ => none, fun _ _ => none⟩

/-- Modelled from the spec: the `rio` filesystem and the region-file parser
at their interface boundary.  `openFile` is `fs.open` (`Err` = `none`);
`newRegionFile` is `RegionFile::new` (`Err` = `none`). -/
structure Env where
  openFile : String → Option RawFile
  newRegionFile : RawFile → Option RegionFile

/-- An environment whose every `fs.open` fails with an I/O error. -/
def envOpenFail : Env := ⟨fun _ => none, fun _ => none⟩

/-- Modelled from the spec: `lru_time_cache::LruCache` is an external
collaborator; spec section 4.3 fixes its contract: a fixed capacity, lookups
and inserts count as "use" for recency, and insertion into a full cache
evicts the least-recently-used entry.  `entries` is kept most-recent-first,
so the least recently used entry is the last one. -/
structure LruCache where
  capacity : Nat
  entries : List ((Int × Int) × RegionFile)

/-- `LruCache::with_capacity`. -/
def LruCache.with_capacity (n : Nat) : LruCache := ⟨n, []⟩

/-- Find the cached handle for a coordinate, if present. -/
def LruCache.lookup (c : LruCache) (k : Int × Int) : Option RegionFile :=
  (c.entries.find? (fun e => decide (e.1 = k))).map (fun e => e.2)

/-- `cache.entry(k).or_insert_with(f)`: on a hit the entry moves to the front
(recency refresh) and `f` is not evaluated; on a miss `f ()` is inserted at
the front and the list is truncated to `capacity`, dropping the
least-recently-used (last) entry when the cache was full. -/
def LruCache.entryOrInsertWith (c : LruCache) (k : Int × Int) (f : Unit → RegionFile) :
    RegionFile × LruCache :=
  match c.entries.find? (fun e => decide (e.1 = k)) with
  | some e => (e.2, ⟨c.capacity, (k, e.2) :: c.entries.eraseP (fun e => decide (e.1 = k))⟩)
  | none => (f (), ⟨c.capacity, ((k, f ()) :: c.entries).take c.capacity⟩)

/-! ### Regionset (`world.rs` lines 88-180) -/

/-- `Regionset`: an index of discovered region coordinates plus the handle
cache (the `RefCell` interior mutability becomes explicit state passing). -/
structure Regionset where
  region_dir : String
  regions : List (Int × Int)
  cache : LruCache

/-- One directory entry of the world root, together with what the filesystem
collaborator answers for it: `pathExists` is `fs.exists(path)`, `readDir` is
`read_dir(path)` (`none` = I/O error). -/
structure DirEnt where
  name : String
  isDir : Bool
  pathExists : Bool
  readDir : Option (List String)

/-- `Regionset::new` (`world.rs` lines 102-129): fail if the directory does
not exist, list it (failure propagates), collect the `(x, z)` of every file
name accepted by the container-pattern filter, and create the handle cache
with capacity 16. -/
def Regionset.new (e : DirEnt) : Option Regionset :=
  if e.pathExists then
    match e.readDir with
    | some files =>
        some { region_dir := e.name,
               regions := files.filterMap parseRegionFileName,
               cache := LruCache.with_capacity 16 }
    | none => none
  else none

/-- `format!("r.{}.{}.mca", r.x, r.z)`. -/
def regionFileName (x z : Int) : String :=
  "r." ++ toString x ++ "." ++ toString z ++ ".mca"

/-- `region_dir.join(file)` of the path collaborator. -/
def pathJoin (dir file : String) : String := dir ++ "/" ++ file

/-- Outcome of one `get_chunk` call: a Rust panic (from `.unwrap()`), `None`,
or `Some(Chunk(tag))`. -/
inductive GetChunkResult where
  | panicked
  | notFound
  | found (c : Chunk)

/-- `Regionset::get_chunk` (`world.rs` lines 135-154).  Returns the result,
the cache after the call, and the number of `fs.open` calls performed.
Control flow of the source: split the coordinate at `Region`; return `None`
if the region coordinate was not discovered; otherwise
`cache.entry(coord).or_insert_with(|| RegionFile::new(fs.open(path).unwrap()).unwrap())`
— the closure runs only on a cache miss, and panics if opening or parsing
fails — then `load_chunk(c.x as u8, c.z as u8)`, wrapping `Ok` in `Some` and
any `Err` in `None`.  (The `split` `none` branch is unreachable: splitting at
`Chunk`/`Region` never queries `World::size()`; a `size()` panic would
propagate, hence `panicked`.) -/
def get_chunk (env : Env) (rs : Regionset) (xz : Coord) :
    GetChunkResult × LruCache × Nat :=
  match split .Chunk .Region xz with
  | none => (.panicked, rs.cache, 0)
  | some (c, r) =>
      if (r.x, r.z) ∈ rs.regions then
        match rs.cache.lookup (r.x, r.z) with
        | some rf =>
            match rf.load_chunk (u8cast c.x) (u8cast c.z) with
            | some t => (.found ⟨t⟩, (rs.cache.entryOrInsertWith (r.x, r.z) (fun _ => rf)).2, 0)
            | none => (.notFound, (rs.cache.entryOrInsertWith (r.x, r.z) (fun _ => rf)).2, 0)
        | none =>
            match env.openFile (pathJoin rs.region_dir (regionFileName r.x r.z)) with
            | none => (.panicked, rs.cache, 1)
            | some raw =>
                match env.newRegionFile raw with
                | none => (.panicked, rs.cache, 1)
                | some rf =>
                    match rf.load_chunk (u8cast c.x) (u8cast c.z) with
                    | some t =>
                        (.found ⟨t⟩, (rs.cache.entryOrInsertWith (r.x, r.z) (fun _ => rf)).2, 1)
                    | none =>
                        (.notFound, (rs.cache.entryOrInsertWith (r.x, r.z) (fun _ => rf)).2, 1)
      else (.notFound, rs.cache, 0)

/-- `Regionset::get_chunk_mtime` (`world.rs` lines 165-179): same split and
discovered-set pre-check, then `fs.open` directly (never touching the cache);
`if let Ok` chains collapse open/parse failures into `None`; on success
return `get_chunk_timestamp(c.x as u8, c.z as u8)`.  Returns the result, the
(untouched) cache, and the number of `fs.open` calls. -/
def get_chunk_mtime (env : Env) (rs : Regionset) (xz : Coord) :
    Option Nat × LruCache × Nat :=
  match split .Chunk .Region xz with
  | none => (none, rs.cache, 0)
  | some (c, r) =>
      if (r.x, r.z) ∈ rs.regions then
        match env.openFile (pathJoin rs.region_dir (regionFileName r.x r.z)) with
        | some raw =>
            match env.newRegionFile raw with
            | some rf => (rf.get_chunk_timestamp (u8cast c.x) (u8cast c.z), rs.cache, 1)
            | none => (none, rs.cache, 1)
        | none => (none, rs.cache, 1)
      else (none, rs.cache, 0)

/-- Carry the cache state of one `get_chunk` call back into the `Regionset`
(the effect of the `RefCell` borrow in the source). -/
def applyGetChunk (env : Env) (rs : Regionset) (xz : Coord) : Regionset :=
  { rs with cache := (get_chunk env rs xz).2.1 }

/-- Run a sequence of `get_chunk` calls, threading the cache state. -/
def runQueries (env : Env) (rs : Regionset) : List Coord → Regionset
  | [] => rs
  | q :: qs => runQueries env (applyGetChunk env rs q) qs

/-- A `Regionset` with one discovered region `(0,0)` and a fresh cache. -/
def rsOneRegion : Regionset := ⟨"region", [(0, 0)], LruCache.with_capacity 16⟩

/-! ### World root (`world.rs` lines 19-69) -/

/-- `World`: the root directory, its regionsets, and the parsed `level.dat`. -/
structure World where
  world_dir : String
  regionsets : List Regionset
  level_dat : NbtTag

/-- Modelled from the spec: what the filesystem and decoder collaborators
answer during `World::new`.  `levelDat` collapses
`fs.open(level.dat)` + gunzip + `Tag::parse` (`none` = any failure there);
`rootDir` is `fs.read_dir(world_dir)`. -/
structure WorldEnv where
  rootExists : Bool
  levelDat : Option NbtTag
  rootDir : Option (List DirEnt)

/-- The test `World::new` applies to a subdirectory entry:
`entry.read_dir().any(|e| e.path().extension() == Some("mca"))`
(with a failing `read_dir` treated separately since `try!` aborts). -/
def isRegionsetDir (e : DirEnt) : Bool :=
  e.isDir && (match e.readDir with
              | some files => files.any (fun f => decide (extension f = some "mca"))
              | none => false)

/-- The loop body of `World::new` over the root's entries: a directory whose
listing contains a file with extension `mca` is constructed as a `Regionset`
(`try!` propagates a construction failure); other entries are skipped. -/
def buildRegionsets : List DirEnt → Option (List Regionset)
  | [] => some []
  | e :: rest =>
      if e.isDir then
        match e.readDir with
        | none => none
        | some files =>
            if files.any (fun f => decide (extension f = some "mca")) then
              match Regionset.new e with
              | none => none
              | some rs => (buildRegionsets rest).map (fun l => rs :: l)
            else buildRegionsets rest
      else buildRegionsets rest

/-- `World::new` (`world.rs` lines 27-60): fail if the root does not exist or
`level.dat` cannot be opened/decompressed/parsed; then scan the root's
entries with `buildRegionsets`. -/
def World.new (env : WorldEnv) (p : String) : Option World :=
  if env.rootExists then
    match env.levelDat with
    | some tag =>
        match env.rootDir with
        | some entries => (buildRegionsets entries).map (fun rss => ⟨p, rss, tag⟩)
        | none => none
    | none => none
  else none

/-- A directory entry whose only file has extension `mca` but does not match
the full `r.<x>.<z>.mca` container pattern. -/
def dimFooEntry : DirEnt := ⟨"dim", true, true, some ["foo.mca"]⟩

/-- A world root containing only `dimFooEntry`. -/
def envFooWorld : WorldEnv := ⟨true, some .other, some [dimFooEntry]⟩

/-- The `Regionset` value that `Regionset::new` produces for a directory
entry on its success path. -/
def regionsetOf (e : DirEnt) : Regionset :=
  ⟨e.name, (e.readDir.getD []).filterMap parseRegionFileName, LruCache.with_capacity 16⟩

/-- A full 16-entry cache fixture (keys `(0,0) … (15,0)`). -/
def cache16 : LruCache :=
  ⟨16, (List.range 16).map (fun i => ((Int.ofNat i, (0 : Int)), emptyRegionFile))⟩

/-! ### Theorems: level structure -/

theorem parent_rank {b m : Level} (h : Level.parent b = some m) :
    b.rank = m.rank + 1 := by
  cases b <;> simp [Level.parent] at h <;> subst h <;> rfl

theorem containedI_iff (a b : Level) : ContainedI a b ↔ Contained a b := by
  constructor
  · intro h
    induction h with
    | block m b hp =>
        have h := parent_rank hp
        unfold Contained
        rw [show Level.rank .Block = 0 from rfl, h]
        omega
    | step n m sn sm _ hpn hpm ih =>
        have h1 := parent_rank hpn
        have h2 := parent_rank hpm
        unfold Contained at ih ⊢
        omega
  · intro h
    have hBS : ContainedI .Block .Section := .block .Block .Section rfl
    have hBC : ContainedI .Block .Chunk := .block .Section .Chunk rfl
    have hBR : ContainedI .Block .Region := .block .Chunk .Region rfl
    have hBW : ContainedI .Block .World := .block .Region .World rfl
    have hSC : ContainedI .Section .Chunk := .step .Block .Section _ _ hBS rfl rfl
    have hSR : ContainedI .Section .Region := .step .Block .Chunk _ _ hBC rfl rfl
    have hSW : ContainedI .Section .World := .step .Block .Region _ _ hBR rfl rfl
    have hCR : ContainedI .Chunk .Region := .step .Section .Chunk _ _ hSC rfl rfl
    have hCW : ContainedI .Chunk .World := .step .Section .Region _ _ hSR rfl rfl
    have hRW : ContainedI .Region .World := .step .Chunk .Region _ _ hCR rfl rfl
    cases a <;> cases b <;> first
      | exact hBS | exact hBC | exact hBR | exact hBW
      | exact hSC | exact hSR | exact hSW
      | exact hCR | exact hCW | exact hRW
      | (exfalso; revert h; decide)

theorem size_isSome_of_ne_world {l : Level} (h : l ≠ .World) :
    ∃ s, size l = some s := by
  cases l <;> simp [size] at h ⊢

theorem ne_world_of_contained {a b : Level} (h : Contained a b) : a ≠ .World := by
  intro hw
  subst hw
  have h4 : b.rank ≤ 4 := by cases b <;> decide
  unfold Contained at h
  rw [show Level.rank .World = 4 from rfl] at h
  omega

/-! ### Theorems: bitwise operations versus floor-division arithmetic -/

theorem shiftLeft_int_eq (x : Int) (n : Nat) : x <<< (n : Int) = x * 2 ^ n := by
  rw [Int.shiftLeft_eq_mul_pow]
  norm_cast

theorem ldiff_two_pow_sub_one (s : Nat) :
    ∀ m : Nat, Nat.ldiff (2 ^ s - 1) m = 2 ^ s - 1 - m % 2 ^ s := by
  induction s with
  | zero =>
      intro m
      simp [Nat.ldiff, Nat.bitwise_zero_left]
  | succ s ih =>
      intro m
      have hpow : 2 ^ (s + 1) = 2 * 2 ^ s := by ring
      have hppos := Nat.two_pow_pos s
      have hmask : 2 ^ (s + 1) - 1 = Nat.bit true (2 ^ s - 1) := by
        rw [Nat.bit_val, Bool.toNat_true]
        omega
      obtain ⟨b, q, hbit⟩ : ∃ b q, Nat.bit b q = m :=
        ⟨_, _, Nat.bit_testBit_zero_shiftRight_one m⟩
      have hqlt : q % 2 ^ s < 2 ^ s := Nat.mod_lt _ hppos
      have hble : b.toNat ≤ 1 := by cases b <;> decide
      have hmod : m % 2 ^ (s + 1) = 2 * (q % 2 ^ s) + b.toNat := by
        have hqd : 2 ^ s * (q / 2 ^ s) + q % 2 ^ s = q := Nat.div_add_mod q (2 ^ s)
        have hf : 2 ^ (s + 1) * (q / 2 ^ s) = 2 * (2 ^ s * (q / 2 ^ s)) := by
          rw [hpow]; ring
        have hmval : m = 2 * (q % 2 ^ s) + b.toNat + 2 ^ (s + 1) * (q / 2 ^ s) := by
          rw [← hbit, Nat.bit_val]
          omega
        rw [hmval, Nat.add_mul_mod_self_left,
          Nat.mod_eq_of_lt (by omega)]
      calc Nat.ldiff (2 ^ (s + 1) - 1) m
          = Nat.ldiff (Nat.bit true (2 ^ s - 1)) (Nat.bit b q) := by rw [← hmask, hbit]
        _ = Nat.bit (true && !b) (Nat.ldiff (2 ^ s - 1) q) := Nat.ldiff_bit _ _ _ _
        _ = Nat.bit (!b) (2 ^ s - 1 - q % 2 ^ s) := by rw [Bool.true_and, ih]
        _ = 2 ^ (s + 1) - 1 - m % 2 ^ (s + 1) := by
              rw [Nat.bit_val, hmod]
              cases b <;>
                simp only [Bool.not_true, Bool.not_false, Bool.toNat_true, Bool.toNat_false] <;>
                omega

/-- On two's-complement integers, masking with `2^s - 1` is the non-negative
residue modulo `2^s` (Euclidean = floor modulo, the divisor being positive). -/
theorem land_two_pow_sub_one (x : Int) (s : Nat) :
    Int.land x ((2 : Int) ^ s - 1) = x % (2 : Int) ^ s := by
  have h1 : (1 : Nat) ≤ 2 ^ s := Nat.one_le_two_pow
  have hcast : ((2 : Int) ^ s - 1) = ((2 ^ s - 1 : Nat) : Int) := by
    push_cast [h1]
    ring
  rw [hcast]
  cases x with
  | ofNat m =>
      have : Int.land (Int.ofNat m) ((2 ^ s - 1 : Nat) : Int) =
          ((m &&& (2 ^ s - 1) : Nat) : Int) := rfl
      rw [this, Nat.and_pow_two_sub_one_eq_mod]
      have : ((2 ^ s - 1 : Nat) : Int) + 1 = ((2 ^ s : Nat) : Int) := by
        push_cast [h1]
        ring
      show ((m % 2 ^ s : Nat) : Int) = Int.ofNat m % _
      have hK : (Int.ofNat m) % ((2 : Int) ^ s) = ((m % 2 ^ s : Nat) : Int) := by
        rw [show ((2 : Int) ^ s) = ((2 ^ s : Nat) : Int) by push_cast; ring]
        exact (Int.ofNat_emod m (2 ^ s)).symm
      rw [show ((2 : Int) ^ s) = ((2 ^ s : Nat) : Int) by push_cast; ring] at hK ⊢
      omega
  | negSucc m =>
      have hland : Int.land (Int.negSucc m) ((2 ^ s - 1 : Nat) : Int) =
          ((Nat.ldiff (2 ^ s - 1) m : Nat) : Int) := rfl
      rw [hland, ldiff_two_pow_sub_one]
      have hrlt : m % 2 ^ s < 2 ^ s := Nat.mod_lt _ (Nat.two_pow_pos s)
      have hdm : 2 ^ s * (m / 2 ^ s) + m % 2 ^ s = m := Nat.div_add_mod m (2 ^ s)
      have hdm' : ((2 ^ s : Nat) : Int) * ((m / 2 ^ s : Nat) : Int) +
          ((m % 2 ^ s : Nat) : Int) = (m : Int) := by exact_mod_cast hdm
      have hK2 : ((2 : Int) ^ s) = ((2 ^ s : Nat) : Int) := by push_cast; ring
      have hx : Int.negSucc m = ((2 ^ s - 1 - m % 2 ^ s : Nat) : Int) +
          ((2 ^ s : Nat) : Int) * (-((m / 2 ^ s : Nat) : Int) - 1) := by
        rw [Int.negSucc_eq]
        have he : ((2 ^ s - 1 - m % 2 ^ s : Nat) : Int) =
            ((2 ^ s : Nat) : Int) - 1 - ((m % 2 ^ s : Nat) : Int) := by omega
        rw [he]
        linear_combination hdm'
      rw [hx, hK2, Int.add_mul_emod_self_left,
        Int.emod_eq_of_lt (by positivity) (by exact_mod_cast by omega)]

/-- On two's-complement integers, arithmetic right shift is floor division by
`2^s`. -/
theorem shiftRight_int_eq_fdiv (x : Int) (s : Nat) :
    x >>> ((s : Nat) : Int) = Int.fdiv x ((2 : Int) ^ s) := by
  have hppos : (0 : Int) < (2 : Int) ^ s := by positivity
  rw [Int.fdiv_eq_ediv _ (le_of_lt hppos)]
  cases x with
  | ofNat m =>
      show ((m : Int)) >>> ((s : Nat) : Int) = (m : Int) / (2 : Int) ^ s
      rw [Int.shiftRight_coe_nat, Nat.shiftRight_eq_div_pow]
      rw [show ((2 : Int) ^ s) = ((2 ^ s : Nat) : Int) by push_cast; ring]
      exact Int.ofNat_ediv m (2 ^ s)
  | negSucc m =>
      rw [Int.shiftRight_negSucc, Nat.shiftRight_eq_div_pow]
      have hrlt : m % 2 ^ s < 2 ^ s := Nat.mod_lt _ (Nat.two_pow_pos s)
      have hdm : 2 ^ s * (m / 2 ^ s) + m % 2 ^ s = m := Nat.div_add_mod m (2 ^ s)
      have hdm' : ((2 ^ s : Nat) : Int) * ((m / 2 ^ s : Nat) : Int) +
          ((m % 2 ^ s : Nat) : Int) = (m : Int) := by exact_mod_cast hdm
      have h := (Int.ediv_emod_unique (a := Int.negSucc m)
        (b := (2 : Int) ^ s) (r := (2 : Int) ^ s - 1 - ((m % 2 ^ s : Nat) : Int))
        (q := -((m / 2 ^ s : Nat) : Int) - 1) hppos).mpr ?_
      · rw [h.1, Int.negSucc_eq]
        push_cast
        ring
      · refine ⟨?_, ?_, ?_⟩
        · rw [Int.negSucc_eq, show ((2 : Int) ^ s) = ((2 ^ s : Nat) : Int) by push_cast; ring]
          linear_combination - hdm'
        · have : ((m % 2 ^ s : Nat) : Int) < ((2 ^ s : Nat) : Int) := by exact_mod_cast hrlt
          rw [show ((2 : Int) ^ s) = ((2 ^ s : Nat) : Int) by push_cast; ring]
          omega
        · have : (0 : Int) ≤ ((m % 2 ^ s : Nat) : Int) := by positivity
          omega

/-! ### Theorems: characterizations of `split` and `join` in floor arithmetic -/

theorem split_char (el mid : Level) (sm se : Nat × Nat × Nat)
    (hm : size mid = some sm) (he : size el = some se) (c : Coord) :
    split el mid c =
      some (⟨c.x % (2 : Int) ^ (sm.1 - se.1),
             c.y % (2 : Int) ^ (sm.2.1 - se.2.1),
             c.z % (2 : Int) ^ (sm.2.2 - se.2.2)⟩,
            ⟨Int.fdiv c.x ((2 : Int) ^ (sm.1 - se.1)),
             Int.fdiv c.y ((2 : Int) ^ (sm.2.1 - se.2.1)),
             Int.fdiv c.z ((2 : Int) ^ (sm.2.2 - se.2.2))⟩) := by
  obtain ⟨mx, my, mz⟩ := sm
  obtain ⟨ex, ey, ez⟩ := se
  simp only [split, hm, he, shiftLeft_int_eq, one_mul, land_two_pow_sub_one,
    shiftRight_int_eq_fdiv]

theorem join_char (el inn : Level) (sm se : Nat × Nat × Nat)
    (hm : size inn = some sm) (he : size el = some se) (a b : Coord) :
    join el inn a b =
      some ⟨wrap64 (a.x + wrap64 (b.x * (2 : Int) ^ (sm.1 - se.1))),
            wrap64 (a.y + wrap64 (b.y * (2 : Int) ^ (sm.2.1 - se.2.1))),
            wrap64 (a.z + wrap64 (b.z * (2 : Int) ^ (sm.2.2 - se.2.2)))⟩ := by
  obtain ⟨mx, my, mz⟩ := sm
  obtain ⟨ex, ey, ez⟩ := se
  simp only [join, hm, he, shiftLeft_int_eq]

/-- `wrap64` is the identity exactly on the `i64` range. -/
theorem wrap64_eq_self (v : Int) (h1 : -(2 ^ 63) ≤ v) (h2 : v < 2 ^ 63) :
    wrap64 v = v := by
  unfold wrap64
  have hp : (2 : Int) ^ 64 = 2 ^ 63 + 2 ^ 63 := by norm_num
  rw [Int.emod_eq_of_lt (by linarith) (by linarith)]
  ring

/-- Every defined cumulative size is at most 9 bits per axis, in particular
at most 63. -/
theorem size_le_63 {l : Level} {sx sy sz : Nat} (h : size l = some (sx, sy, sz)) :
    sx ≤ 63 ∧ sy ≤ 63 ∧ sz ≤ 63 := by
  cases l <;> first
    | (simp only [size, Option.some.injEq, Prod.mk.injEq] at h
       obtain ⟨h1, h2, h3⟩ := h
       omega)
    | (simp [size] at h)

/-- Per-axis: re-joining the two halves of a split recovers the input exactly,
for every integer input. -/
theorem axis_join_of_split (x : Int) (s : Nat) :
    x % (2 : Int) ^ s + Int.fdiv x ((2 : Int) ^ s) * (2 : Int) ^ s = x := by
  have hppos : (0 : Int) < (2 : Int) ^ s := by positivity
  rw [Int.fdiv_eq_ediv _ (le_of_lt hppos)]
  have := Int.emod_add_ediv x ((2 : Int) ^ s)
  linarith [this]

/-- Per-axis: splitting a joined coordinate recovers both halves, provided the
low half is within range. -/
theorem axis_split_of_join (a b : Int) (s : Nat) (h0 : 0 ≤ a) (h1 : a < (2 : Int) ^ s) :
    (a + b * (2 : Int) ^ s) % (2 : Int) ^ s = a ∧
    Int.fdiv (a + b * (2 : Int) ^ s) ((2 : Int) ^ s) = b := by
  have hppos : (0 : Int) < (2 : Int) ^ s := by positivity
  constructor
  · rw [show a + b * (2 : Int) ^ s = a + (2 : Int) ^ s * b by ring,
      Int.add_mul_emod_self_left, Int.emod_eq_of_lt h0 h1]
  · rw [Int.fdiv_eq_ediv _ (le_of_lt hppos),
      show a + b * (2 : Int) ^ s = a + (2 : Int) ^ s * b by ring,
      Int.add_mul_ediv_left _ _ (ne_of_gt hppos),
      Int.ediv_eq_zero_of_lt h0 h1, zero_add]

/-- Per-axis split-of-join on the wrapping `i64` join: holds whenever the
shifted value and the sum stay in the `i64` range (then the machine result
equals the ideal sum). -/
theorem axis_split_of_join_i64 (a b : Int) (s : Nat) (h0 : 0 ≤ a) (h1 : a < (2 : Int) ^ s)
    (hb0 : -(2 ^ 63) ≤ b * (2 : Int) ^ s) (hb1 : b * (2 : Int) ^ s ≤ 2 ^ 63 - 1)
    (hab0 : -(2 ^ 63) ≤ a + b * (2 : Int) ^ s) (hab1 : a + b * (2 : Int) ^ s ≤ 2 ^ 63 - 1) :
    (wrap64 (a + wrap64 (b * (2 : Int) ^ s))) % (2 : Int) ^ s = a ∧
    Int.fdiv (wrap64 (a + wrap64 (b * (2 : Int) ^ s))) ((2 : Int) ^ s) = b := by
  rw [wrap64_eq_self _ hb0 (by linarith), wrap64_eq_self _ hab0 (by linarith)]
  exact axis_split_of_join a b s h0 h1

/-- Per-axis join-of-split on the wrapping `i64` join: for every `i64`-range
input `c` and shift at most 63, neither the shift nor the addition can
overflow, so the split halves rejoin to `c` exactly. -/
theorem axis_join_of_split_i64 (c : Int) (s : Nat) (hs : s ≤ 63)
    (hc0 : -(2 ^ 63) ≤ c) (hc1 : c ≤ 2 ^ 63 - 1) :
    wrap64 (c % (2 : Int) ^ s + wrap64 (Int.fdiv c ((2 : Int) ^ s) * (2 : Int) ^ s)) = c := by
  have hppos : (0 : Int) < (2 : Int) ^ s := by positivity
  have hr0 : 0 ≤ c % (2 : Int) ^ s := Int.emod_nonneg _ (ne_of_gt hppos)
  have hsum := axis_join_of_split c s
  have hub : Int.fdiv c ((2 : Int) ^ s) * (2 : Int) ^ s ≤ c := by linarith
  have hpow : ((2 : Int) ^ (63 - s)) * (2 : Int) ^ s = 2 ^ 63 := by
    rw [← pow_add]
    congr 1
    omega
  have hfd : Int.fdiv (-((2 : Int) ^ 63)) ((2 : Int) ^ s) = -((2 : Int) ^ (63 - s)) := by
    rw [← hpow, ← neg_mul]
    exact Int.mul_fdiv_cancel _ (ne_of_gt hppos)
  have hmono : Int.fdiv (-((2 : Int) ^ 63)) ((2 : Int) ^ s) ≤ Int.fdiv c ((2 : Int) ^ s) := by
    rw [Int.fdiv_eq_ediv _ (le_of_lt hppos), Int.fdiv_eq_ediv _ (le_of_lt hppos)]
    exact Int.ediv_le_ediv hppos hc0
  have hlb : -((2 : Int) ^ 63) ≤ Int.fdiv c ((2 : Int) ^ s) * (2 : Int) ^ s := by
    have hm2 := mul_le_mul_of_nonneg_right (hfd ▸ hmono) (le_of_lt hppos)
    rw [neg_mul, hpow] at hm2
    exact hm2
  rw [wrap64_eq_self _ hlb (by linarith), hsum, wrap64_eq_self _ hc0 (by linarith)]

/-! ### Claim theorems: coordinate algebra -/

/-- C1 counterexample: the round-trip law `split (join a b) = (a, b)` fails
on the program for a type-valid, in-low-range input, because `Coord::join`'s
`i64` shift discards high bits.  With `a = (13,63,12) : Coord<Block,Chunk>`
(valid: every axis in range) and `b = (0, 2^55, 0) : Coord<Chunk,World>`,
the y-axis shift is 8, `2^55 << 8` wraps to `-2^63` (no panic in any build
mode), and splitting the joined coordinate returns high part `-2^55 ≠ 2^55`. -/
theorem coord_split_join_overflow_counterexample :
    Contained .Block .Chunk ∧ Contained .Chunk .World ∧
    lowRange .Block .Chunk ⟨13, 63, 12⟩ = true ∧
    (join .Block .Chunk ⟨13, 63, 12⟩ ⟨0, 2 ^ 55, 0⟩).bind
        (fun c => split .Block .Chunk c) =
      some (⟨13, 63, 12⟩, ⟨0, -(2 ^ 55), 0⟩) ∧
    (join .Block .Chunk ⟨13, 63, 12⟩ ⟨0, 2 ^ 55, 0⟩).bind
        (fun c => split .Block .Chunk c) ≠
      some (⟨13, 63, 12⟩, ⟨0, 2 ^ 55, 0⟩) := by
  have hj : join .Block .Chunk ⟨13, 63, 12⟩ ⟨0, 2 ^ 55, 0⟩ =
      some ⟨13, 63 - 2 ^ 63, 12⟩ := by
    rw [join_char .Block .Chunk (4, 8, 4) (0, 0, 0) rfl rfl]
    decide
  have hs2 : split .Block .Chunk ⟨13, 63 - 2 ^ 63, 12⟩ =
      some (⟨13, 63, 12⟩, ⟨0, -(2 ^ 55), 0⟩) := by
    rw [split_char .Block .Chunk (4, 8, 4) (0, 0, 0) rfl rfl]
    decide
  refine ⟨by decide, by decide, by decide, ?_, ?_⟩
  · rw [hj, Option.some_bind, hs2]
  · rw [hj, Option.some_bind, hs2]
    intro hcon
    simp only [Option.some.injEq, Prod.mk.injEq, Coord.mk.injEq] at hcon
    omega

/-- C1 amended: round-trip laws of the coordinate algebra on `i64`.  For all
valid level triples, `split (join a b) = (a, b)` holds for every valid
(in-low-range) `a : Coord<El,In>` and every `b : Coord<In,End>` for which
`join`'s shift and addition stay within `i64` (no overflow — for `b` outside
that range the `i64` shift wraps and the law fails, see the counterexample);
and for every `i64` coordinate `c` (negative components included), joining
the two results of `split` at any valid `Mid` reproduces `c` exactly on
every axis. -/
theorem coord_roundtrip_laws_i64 :
    (∀ el mid inn : Level, Contained el mid → Contained mid inn →
      ∀ a b : Coord, lowRange el mid a = true → joinFits el mid a b = true →
        (join el mid a b).bind (fun c => split el mid c) = some (a, b)) ∧
    (∀ el mid inn : Level, Contained el mid → Contained mid inn →
      ∀ c : Coord, i64range c.x = true → i64range c.y = true → i64range c.z = true →
        ∃ lo hi, split el mid c = some (lo, hi) ∧
          join el mid lo hi = some c) := by
  constructor
  · intro el mid inn h1 h2 a b hr hf
    obtain ⟨ax, ay, az⟩ := a
    obtain ⟨b1, b2, b3⟩ := b
    obtain ⟨⟨mx, my, mz⟩, hm⟩ := size_isSome_of_ne_world (ne_world_of_contained h2)
    obtain ⟨⟨ex, ey, ez⟩, he⟩ := size_isSome_of_ne_world (ne_world_of_contained h1)
    simp only [lowRange, hm, he, Bool.and_eq_true, decide_eq_true_eq] at hr
    obtain ⟨⟨⟨⟨⟨h0x, h1x⟩, h0y⟩, h1y⟩, h0z⟩, h1z⟩ := hr
    simp only [joinFits, hm, he, i64range, i64min, i64max, Bool.and_eq_true,
      decide_eq_true_eq] at hf
    obtain ⟨⟨⟨⟨⟨⟨p1, q1⟩, p2, q2⟩, p3, q3⟩, p4, q4⟩, p5, q5⟩, p6, q6⟩ := hf
    rw [join_char el mid (mx, my, mz) (ex, ey, ez) hm he]
    rw [Option.some_bind]
    rw [split_char el mid (mx, my, mz) (ex, ey, ez) hm he]
    dsimp only
    rw [(axis_split_of_join_i64 ax b1 _ h0x h1x p1 q1 p2 q2).1,
      (axis_split_of_join_i64 ax b1 _ h0x h1x p1 q1 p2 q2).2,
      (axis_split_of_join_i64 ay b2 _ h0y h1y p3 q3 p4 q4).1,
      (axis_split_of_join_i64 ay b2 _ h0y h1y p3 q3 p4 q4).2,
      (axis_split_of_join_i64 az b3 _ h0z h1z p5 q5 p6 q6).1,
      (axis_split_of_join_i64 az b3 _ h0z h1z p5 q5 p6 q6).2]
  · intro el mid inn h1 h2 c hcx hcy hcz
    obtain ⟨cx, cy, cz⟩ := c
    obtain ⟨⟨mx, my, mz⟩, hm⟩ := size_isSome_of_ne_world (ne_world_of_contained h2)
    obtain ⟨⟨ex, ey, ez⟩, he⟩ := size_isSome_of_ne_world (ne_world_of_contained h1)
    obtain ⟨hm1, hm2, hm3⟩ := size_le_63 hm
    simp only [i64range, i64min, i64max, Bool.and_eq_true, decide_eq_true_eq] at hcx hcy hcz
    refine ⟨_, _, split_char el mid (mx, my, mz) (ex, ey, ez) hm he _, ?_⟩
    rw [join_char el mid (mx, my, mz) (ex, ey, ez) hm he]
    dsimp only
    rw [axis_join_of_split_i64 cx _ (by omega) hcx.1 hcx.2,
      axis_join_of_split_i64 cy _ (by omega) hcy.1 hcy.2,
      axis_join_of_split_i64 cz _ (by omega) hcz.1 hcz.2]

theorem coord_roundtrip_laws_i64_witness :
    ((join .Block .Chunk ⟨13, 64, 12⟩ ⟨2, 0, -2⟩).bind
        (fun c => split .Block .Chunk c) = some (⟨13, 64, 12⟩, ⟨2, 0, -2⟩)) ∧
    (∃ lo hi, split .Block .Chunk ⟨45, 64, -20⟩ = some (lo, hi) ∧
        join .Block .Chunk lo hi = some ⟨45, 64, -20⟩) :=
  ⟨coord_roundtrip_laws_i64.1 .Block .Chunk .World (by decide) (by decide)
      ⟨13, 64, 12⟩ ⟨2, 0, -2⟩ (by decide) (by decide),
   coord_roundtrip_laws_i64.2 .Block .Chunk .World (by decide) (by decide) ⟨45, 64, -20⟩
      (by decide) (by decide) (by decide)⟩

/-- C2: per axis, with `shift = size(Mid)[axis] - size(El)[axis]` over the
cumulative sizes Block `(0,0,0)`, Section `(4,4,4)`, Chunk `(4,8,4)`,
Region `(9,8,9)`, `split` returns low part `c % 2^shift` (the non-negative
floor-division residue) and high part `⌊c / 2^shift⌋` (arithmetic shift);
in particular Block-in-World `(-1,63,-2)` split at Chunk yields in-chunk
`(15,63,14)` and chunk-in-world `(-1,0,-1)`. -/
theorem split_formula_and_example :
    (∀ el mid : Level, ∀ sm se : Nat × Nat × Nat,
      size mid = some sm → size el = some se → ∀ c : Coord,
      split el mid c =
        some (⟨c.x % (2 : Int) ^ (sm.1 - se.1),
               c.y % (2 : Int) ^ (sm.2.1 - se.2.1),
               c.z % (2 : Int) ^ (sm.2.2 - se.2.2)⟩,
              ⟨Int.fdiv c.x ((2 : Int) ^ (sm.1 - se.1)),
               Int.fdiv c.y ((2 : Int) ^ (sm.2.1 - se.2.1)),
               Int.fdiv c.z ((2 : Int) ^ (sm.2.2 - se.2.2))⟩)) ∧
    size .Block = some (0, 0, 0) ∧ size .Section = some (4, 4, 4) ∧
    size .Chunk = some (4, 8, 4) ∧ size .Region = some (9, 8, 9) ∧
    split .Block .Chunk ⟨-1, 63, -2⟩ = some (⟨15, 63, 14⟩, ⟨-1, 0, -1⟩) := by
  refine ⟨split_char, rfl, rfl, rfl, rfl, ?_⟩
  rw [split_char .Block .Chunk (4, 8, 4) (0, 0, 0) rfl rfl]
  decide

theorem split_formula_and_example_witness :
    split .Chunk .Region ⟨30, 4, -3⟩ =
      some (⟨(30 : Int) % (2 : Int) ^ (9 - 4), (4 : Int) % (2 : Int) ^ (8 - 8),
             (-3 : Int) % (2 : Int) ^ (9 - 4)⟩,
            ⟨Int.fdiv 30 ((2 : Int) ^ (9 - 4)), Int.fdiv 4 ((2 : Int) ^ (8 - 8)),
             Int.fdiv (-3) ((2 : Int) ^ (9 - 4))⟩) :=
  split_formula_and_example.1 .Chunk .Region (9, 8, 9) (4, 8, 4) rfl rfl ⟨30, 4, -3⟩

/-- C10: for every valid `(El,Mid,In)` triple the low part of `split` is
non-negative and below `2^shift` on every axis; in particular the in-region
chunk offset lies in `[0,32)` on x and z, so the `as u8` casts that
`get_chunk` performs before `load_chunk` never truncate or wrap. -/
theorem split_low_bounds :
    (∀ el mid inn : Level, Contained el mid → Contained mid inn → ∀ c : Coord,
      ∃ sm se lo hi, size mid = some sm ∧ size el = some se ∧
        split el mid c = some (lo, hi) ∧
        0 ≤ lo.x ∧ lo.x < (2 : Int) ^ (sm.1 - se.1) ∧
        0 ≤ lo.y ∧ lo.y < (2 : Int) ^ (sm.2.1 - se.2.1) ∧
        0 ≤ lo.z ∧ lo.z < (2 : Int) ^ (sm.2.2 - se.2.2)) ∧
    (∀ xz lo hi : Coord, split .Chunk .Region xz = some (lo, hi) →
      0 ≤ lo.x ∧ lo.x < 32 ∧ 0 ≤ lo.z ∧ lo.z < 32 ∧
      ((u8cast lo.x : Int) = lo.x ∧ (u8cast lo.z : Int) = lo.z)) := by
  constructor
  · intro el mid inn h1 h2 c
    obtain ⟨⟨mx, my, mz⟩, hm⟩ := size_isSome_of_ne_world (ne_world_of_contained h2)
    obtain ⟨⟨ex, ey, ez⟩, he⟩ := size_isSome_of_ne_world (ne_world_of_contained h1)
    refine ⟨(mx, my, mz), (ex, ey, ez), _, _, hm, he,
      split_char el mid (mx, my, mz) (ex, ey, ez) hm he c, ?_, ?_, ?_, ?_, ?_, ?_⟩
    · exact Int.emod_nonneg _ (by positivity)
    · exact Int.emod_lt_of_pos _ (by positivity)
    · exact Int.emod_nonneg _ (by positivity)
    · exact Int.emod_lt_of_pos _ (by positivity)
    · exact Int.emod_nonneg _ (by positivity)
    · exact Int.emod_lt_of_pos _ (by positivity)
  · intro xz lo hi h
    rw [split_char .Chunk .Region (9, 8, 9) (4, 8, 4) rfl rfl] at h
    have e32 : ((2 : Int) ^ (9 - 4 : Nat)) = 32 := by norm_num
    have e1 : ((2 : Int) ^ (8 - 8 : Nat)) = 1 := by norm_num
    rw [e32, e1] at h
    rw [Option.some.injEq, Prod.mk.injEq] at h
    obtain ⟨hlo, -⟩ := h
    subst hlo
    dsimp only
    have h0x : (0 : Int) ≤ xz.x % 32 := Int.emod_nonneg _ (by norm_num)
    have h1x : xz.x % 32 < 32 := Int.emod_lt_of_pos _ (by norm_num)
    have h0z : (0 : Int) ≤ xz.z % 32 := Int.emod_nonneg _ (by norm_num)
    have h1z : xz.z % 32 < 32 := Int.emod_lt_of_pos _ (by norm_num)
    refine ⟨h0x, h1x, h0z, h1z, ?_, ?_⟩
    · unfold u8cast
      rw [Int.emod_eq_of_lt h0x (by omega), Int.toNat_of_nonneg h0x]
    · unfold u8cast
      rw [Int.emod_eq_of_lt h0z (by omega), Int.toNat_of_nonneg h0z]

theorem split_low_bounds_witness :
    (∃ sm se lo hi, size .Chunk = some sm ∧ size .Block = some se ∧
        split .Block .Chunk ⟨-1, 63, -2⟩ = some (lo, hi) ∧
        0 ≤ lo.x ∧ lo.x < (2 : Int) ^ (sm.1 - se.1) ∧
        0 ≤ lo.y ∧ lo.y < (2 : Int) ^ (sm.2.1 - se.2.1) ∧
        0 ≤ lo.z ∧ lo.z < (2 : Int) ^ (sm.2.2 - se.2.2)) ∧
    (0 ≤ (6 : Int) ∧ (6 : Int) < 32 ∧ 0 ≤ (2 : Int) ∧ (2 : Int) < 32 ∧
      ((u8cast 6 : Int) = 6 ∧ (u8cast 2 : Int) = 2)) :=
  ⟨split_low_bounds.1 .Block .Chunk .World (by decide) (by decide) ⟨-1, 63, -2⟩,
   split_low_bounds.2 ⟨70, 16, -30⟩ ⟨6, 0, 2⟩ ⟨2, 16, -1⟩
     (by rw [split_char .Chunk .Region (9, 8, 9) (4, 8, 4) rfl rfl]; decide)⟩

/-! ### Theorems: the access layer -/

/-- Splitting a Chunk-in-World coordinate at Region level, concretely:
shift 5 on x/z (32 chunks per region axis) and 0 on y. -/
theorem split_chunk_region (xz : Coord) :
    split .Chunk .Region xz =
      some (⟨xz.x % 32, xz.y % 1, xz.z % 32⟩,
            ⟨Int.fdiv xz.x 32, Int.fdiv xz.y 1, Int.fdiv xz.z 32⟩) := by
  have h := split_char .Chunk .Region (9, 8, 9) (4, 8, 4) rfl rfl xz
  have e32 : ((2 : Int) ^ (9 - 4 : Nat)) = 32 := by norm_num
  have e1 : ((2 : Int) ^ (8 - 8 : Nat)) = 1 := by norm_num
  rw [e32, e1] at h
  exact h

theorem entryOrInsertWith_hit (c : LruCache) (k : Int × Int) (f : Unit → RegionFile)
    (rf : RegionFile) (h : c.lookup k = some rf) :
    c.entryOrInsertWith k f =
      (rf, ⟨c.capacity, (k, rf) :: c.entries.eraseP (fun e => decide (e.1 = k))⟩) := by
  unfold LruCache.lookup at h
  unfold LruCache.entryOrInsertWith
  cases hf : c.entries.find? (fun e => decide (e.1 = k)) with
  | none => rw [hf] at h; simp at h
  | some e =>
      rw [hf] at h
      simp at h
      dsimp only
      rw [h]

theorem entryOrInsertWith_miss (c : LruCache) (k : Int × Int) (f : Unit → RegionFile)
    (h : c.lookup k = none) :
    c.entryOrInsertWith k f =
      (f (), ⟨c.capacity, ((k, f ()) :: c.entries).take c.capacity⟩) := by
  unfold LruCache.lookup at h
  unfold LruCache.entryOrInsertWith
  cases hf : c.entries.find? (fun e => decide (e.1 = k)) with
  | none => rfl
  | some e => rw [hf] at h; simp at h

theorem entryOrInsertWith_inv (c : LruCache) (k : Int × Int) (f : Unit → RegionFile)
    (h : c.entries.length ≤ c.capacity) :
    ((c.entryOrInsertWith k f).2).entries.length ≤ c.capacity ∧
    ((c.entryOrInsertWith k f).2).capacity = c.capacity := by
  unfold LruCache.entryOrInsertWith
  cases hf : c.entries.find? (fun e => decide (e.1 = k)) with
  | some e =>
      have hmem := List.mem_of_find?_eq_some hf
      have hp := List.find?_some hf
      have hlen := List.length_eraseP_of_mem (p := fun e => decide (e.1 = k)) hmem hp
      have hpos : 1 ≤ c.entries.length := List.length_pos.mpr (List.ne_nil_of_mem hmem)
      constructor
      · simp only [List.length_cons, hlen]
        omega
      · rfl
  | none =>
      constructor
      · simp only [List.length_take]
        exact Nat.min_le_left _ _
      · rfl

theorem get_chunk_cache_inv (env : Env) (rs : Regionset) (xz : Coord)
    (h : rs.cache.entries.length ≤ rs.cache.capacity) :
    ((get_chunk env rs xz).2.1).entries.length ≤ rs.cache.capacity ∧
    ((get_chunk env rs xz).2.1).capacity = rs.cache.capacity := by
  unfold get_chunk
  rw [split_chunk_region]
  dsimp only
  split_ifs with hmem
  · split
    · split
      · exact entryOrInsertWith_inv rs.cache _ _ h
      · exact entryOrInsertWith_inv rs.cache _ _ h
    · split
      · exact ⟨h, rfl⟩
      · split
        · exact ⟨h, rfl⟩
        · split
          · exact entryOrInsertWith_inv rs.cache _ _ h
          · exact entryOrInsertWith_inv rs.cache _ _ h
  · exact ⟨h, rfl⟩

theorem runQueries_inv (env : Env) : ∀ (qs : List Coord) (rs : Regionset),
    rs.cache.entries.length ≤ rs.cache.capacity →
    (runQueries env rs qs).cache.capacity = rs.cache.capacity ∧
    (runQueries env rs qs).cache.entries.length ≤ rs.cache.capacity := by
  intro qs
  induction qs with
  | nil => intro rs h; exact ⟨rfl, h⟩
  | cons q qs ih =>
      intro rs h
      have hstep := get_chunk_cache_inv env rs q h
      have happ : (applyGetChunk env rs q).cache = (get_chunk env rs q).2.1 := rfl
      have h1 : (applyGetChunk env rs q).cache.entries.length ≤
          (applyGetChunk env rs q).cache.capacity := by
        rw [happ, hstep.2]; exact hstep.1
      obtain ⟨hc, hl⟩ := ih (applyGetChunk env rs q) h1
      have hrun : runQueries env rs (q :: qs) = runQueries env (applyGetChunk env rs q) qs := rfl
      constructor
      · rw [hrun, hc, happ, hstep.2]
      · rw [hrun]
        rw [happ, hstep.2] at hl
        exact hl

/-! ### Claim theorems: the access layer -/

/-- C4: the handle cache is created by `Regionset::new` with fixed capacity
16; across any sequence of `get_chunk` calls the number of simultaneously
open handles (cache entries) never exceeds the capacity; and inserting a new
coordinate into a full cache evicts exactly the least-recently-used entry
(the last in recency order). -/
theorem lru_cache_discipline :
    (∀ e rs, Regionset.new e = some rs → rs.cache = LruCache.with_capacity 16) ∧
    (∀ (env : Env) (rs : Regionset) (qs : List Coord),
      rs.cache.capacity = 16 → rs.cache.entries.length ≤ 16 →
      (runQueries env rs qs).cache.entries.length ≤ 16) ∧
    (∀ (cache : LruCache) (k : Int × Int) (f : Unit → RegionFile),
      cache.capacity = 16 → cache.entries.length = 16 → cache.lookup k = none →
      cache.entryOrInsertWith k f =
        (f (), ⟨16, (k, f ()) :: cache.entries.dropLast⟩)) := by
  refine ⟨?_, ?_, ?_⟩
  · intro e rs h
    unfold Regionset.new at h
    split_ifs at h
    cases hrd : e.readDir with
    | none => rw [hrd] at h; simp at h
    | some files =>
        rw [hrd] at h
        simp only [Option.some.injEq] at h
        rw [← h]
  · intro env rs qs hcap hlen
    have h := runQueries_inv env qs rs (by rw [hcap]; exact hlen)
    rw [hcap] at h
    exact h.2
  · intro cache k f hcap hlen hl
    rw [entryOrInsertWith_miss cache k f hl, hcap]
    have htake : ((k, f ()) :: cache.entries).take 16 =
        (k, f ()) :: cache.entries.take 15 := List.take_succ_cons
    have hdrop : cache.entries.dropLast = cache.entries.take 15 := by
      rw [List.dropLast_eq_take, hlen]
    rw [htake, hdrop]

theorem lru_cache_discipline_witness :
    ((⟨"region", [], LruCache.with_capacity 16⟩ : Regionset).cache =
        LruCache.with_capacity 16) ∧
    ((runQueries envOpenFail rsOneRegion [⟨0, 0, 0⟩]).cache.entries.length ≤ 16) ∧
    (cache16.entryOrInsertWith (16, 0) (fun _ => emptyRegionFile) =
      (emptyRegionFile, ⟨16, ((16, 0), emptyRegionFile) :: cache16.entries.dropLast⟩)) := by
  have hlook : cache16.lookup (16, 0) = none := by
    unfold cache16 LruCache.lookup
    rw [Option.map_eq_none', List.find?_eq_none]
    intro a ha
    simp only [List.mem_map, List.mem_range] at ha
    obtain ⟨i, hi, rfl⟩ := ha
    simp only [decide_eq_true_eq]
    intro hcon
    rw [Prod.mk.injEq] at hcon
    obtain ⟨hcon1, -⟩ := hcon
    have h2 : ((i : Int)) = 16 := hcon1
    omega
  refine ⟨lru_cache_discipline.1 ⟨"region", true, true, some []⟩ _ rfl,
    lru_cache_discipline.2.1 envOpenFail rsOneRegion [⟨0, 0, 0⟩] rfl (by decide),
    lru_cache_discipline.2.2 cache16 (16, 0) (fun _ => emptyRegionFile) rfl (by decide) hlook⟩

/-- C5: a chunk coordinate whose region coordinate is absent from the
discovered set makes `get_chunk` return `None` immediately, leaving the cache
untouched and performing zero filesystem opens. -/
theorem get_chunk_undiscovered_no_open :
    ∀ (env : Env) (rs : Regionset) (xz c r : Coord),
      split .Chunk .Region xz = some (c, r) →
      (r.x, r.z) ∉ rs.regions →
      get_chunk env rs xz = (.notFound, rs.cache, 0) := by
  intro env rs xz c r hs hmem
  unfold get_chunk
  rw [hs]
  dsimp only
  rw [if_neg hmem]

theorem get_chunk_undiscovered_no_open_witness :
    get_chunk envOpenFail ⟨"region", [], LruCache.with_capacity 16⟩ ⟨0, 0, 0⟩ =
      (.notFound, (⟨"region", [], LruCache.with_capacity 16⟩ : Regionset).cache, 0) :=
  get_chunk_undiscovered_no_open envOpenFail ⟨"region", [], LruCache.with_capacity 16⟩
    ⟨0, 0, 0⟩ ⟨0, 0, 0⟩ ⟨0, 0, 0⟩
    (by rw [split_chunk_region]; decide) (by decide)

/-- C3 counterexample: for a chunk whose region IS discovered, a failing
`fs.open` does NOT produce `None` — the `.unwrap()` inside `or_insert_with`
panics.  With every open failing, a discovered region `(0,0)` and an empty
cache, `get_chunk` panics instead of returning `None`. -/
theorem get_chunk_open_error_panics :
    (get_chunk envOpenFail rsOneRegion ⟨0, 0, 0⟩).1 = .panicked ∧
    (get_chunk envOpenFail rsOneRegion ⟨0, 0, 0⟩).1 ≠ .notFound := by
  have hs : split .Chunk .Region ⟨0, 0, 0⟩ = some (⟨0, 0, 0⟩, ⟨0, 0, 0⟩) := by
    rw [split_chunk_region]
    decide
  have h : (get_chunk envOpenFail rsOneRegion ⟨0, 0, 0⟩).1 = .panicked := by
    unfold get_chunk
    rw [hs]
    dsimp only
    rw [if_pos (show ((0 : Int), (0 : Int)) ∈ rsOneRegion.regions by decide)]
    rfl
  exact ⟨h, by rw [h]; intro hcon; exact GetChunkResult.noConfusion hcon⟩

/-- C3 amended: for a discovered region, a missing/empty/undecodable entry at
the in-region offset (`load_chunk` returning `Err`) is folded into `None`;
but a failure to open the container file or to parse it as a container
(both inside the cache-fill closure) panics via `.unwrap()` rather than
returning `None`. -/
theorem get_chunk_error_policy :
    ∀ (env : Env) (rs : Regionset) (xz c r : Coord),
      split .Chunk .Region xz = some (c, r) →
      (r.x, r.z) ∈ rs.regions →
      (∀ rf, rs.cache.lookup (r.x, r.z) = some rf →
        (rf.load_chunk (u8cast c.x) (u8cast c.z) = none →
          (get_chunk env rs xz).1 = .notFound) ∧
        (∀ t, rf.load_chunk (u8cast c.x) (u8cast c.z) = some t →
          (get_chunk env rs xz).1 = .found ⟨t⟩)) ∧
      (rs.cache.lookup (r.x, r.z) = none →
        (env.openFile (pathJoin rs.region_dir (regionFileName r.x r.z)) = none →
          (get_chunk env rs xz).1 = .panicked) ∧
        (∀ raw, env.openFile (pathJoin rs.region_dir (regionFileName r.x r.z)) = some raw →
          (env.newRegionFile raw = none → (get_chunk env rs xz).1 = .panicked) ∧
          (∀ rf, env.newRegionFile raw = some rf →
            (rf.load_chunk (u8cast c.x) (u8cast c.z) = none →
              (get_chunk env rs xz).1 = .notFound) ∧
            (∀ t, rf.load_chunk (u8cast c.x) (u8cast c.z) = some t →
              (get_chunk env rs xz).1 = .found ⟨t⟩)))) := by
  intro env rs xz c r hs hmem
  have hbase : get_chunk env rs xz =
      (match rs.cache.lookup (r.x, r.z) with
       | some rf =>
           match rf.load_chunk (u8cast c.x) (u8cast c.z) with
           | some t => (.found ⟨t⟩, (rs.cache.entryOrInsertWith (r.x, r.z) (fun _ => rf)).2, 0)
           | none => (.notFound, (rs.cache.entryOrInsertWith (r.x, r.z) (fun _ => rf)).2, 0)
       | none =>
           match env.openFile (pathJoin rs.region_dir (regionFileName r.x r.z)) with
           | none => (.panicked, rs.cache, 1)
           | some raw =>
               match env.newRegionFile raw with
               | none => (.panicked, rs.cache, 1)
               | some rf =>
                   match rf.load_chunk (u8cast c.x) (u8cast c.z) with
                   | some t =>
                       (.found ⟨t⟩, (rs.cache.entryOrInsertWith (r.x, r.z) (fun _ => rf)).2, 1)
                   | none =>
                       (.notFound, (rs.cache.entryOrInsertWith (r.x, r.z) (fun _ => rf)).2, 1)) := by
    unfold get_chunk
    rw [hs]
    dsimp only
    rw [if_pos hmem]
  constructor
  · intro rf hl
    rw [hbase, hl]
    dsimp only
    constructor
    · intro hload
      rw [hload]
    · intro t hload
      rw [hload]
  · intro hl
    rw [hbase, hl]
    dsimp only
    constructor
    · intro hopen
      rw [hopen]
    · intro raw hopen
      rw [hopen]
      dsimp only
      constructor
      · intro hnew
        rw [hnew]
      · intro rf hnew
        rw [hnew]
        dsimp only
        constructor
        · intro hload
          rw [hload]
        · intro t hload
          rw [hload]

theorem get_chunk_error_policy_witness :
    (get_chunk envOpenFail rsOneRegion ⟨0, 0, 0⟩).1 = .panicked := by
  have hs : split .Chunk .Region ⟨0, 0, 0⟩ = some (⟨0, 0, 0⟩, ⟨0, 0, 0⟩) := by
    rw [split_chunk_region]
    decide
  exact ((get_chunk_error_policy envOpenFail rsOneRegion ⟨0, 0, 0⟩ ⟨0, 0, 0⟩ ⟨0, 0, 0⟩
    hs (by decide)).2 rfl).1 rfl

/-- C8: `get_chunk_mtime` performs the same Region-level split and
discovered-set pre-check as `get_chunk`, never consults or modifies the
handle cache (the cache is identical before and after), opens the container
directly on every discovered-region call (exactly one `fs.open`), and
returns `None` when the region is undiscovered, the open or the container
parse fails, or no timestamp exists at the offset. -/
theorem get_chunk_mtime_uncached :
    ∀ (env : Env) (rs : Regionset) (xz : Coord),
      ((get_chunk_mtime env rs xz).2.1 = rs.cache) ∧
      (∀ c r, split .Chunk .Region xz = some (c, r) →
        ((r.x, r.z) ∉ rs.regions → get_chunk_mtime env rs xz = (none, rs.cache, 0)) ∧
        ((r.x, r.z) ∈ rs.regions →
          (get_chunk_mtime env rs xz).2.2 = 1 ∧
          (env.openFile (pathJoin rs.region_dir (regionFileName r.x r.z)) = none →
            (get_chunk_mtime env rs xz).1 = none) ∧
          (∀ raw, env.openFile (pathJoin rs.region_dir (regionFileName r.x r.z)) = some raw →
            (env.newRegionFile raw = none → (get_chunk_mtime env rs xz).1 = none) ∧
            (∀ rf, env.newRegionFile raw = some rf →
              (get_chunk_mtime env rs xz).1 =
                rf.get_chunk_timestamp (u8cast c.x) (u8cast c.z))))) := by
  intro env rs xz
  constructor
  · unfold get_chunk_mtime
    rw [split_chunk_region]
    dsimp only
    split_ifs with hmem
    · split
      · split
        · rfl
        · rfl
      · rfl
    · rfl
  · intro c r hs
    have hbase : get_chunk_mtime env rs xz =
        (if (r.x, r.z) ∈ rs.regions then
          match env.openFile (pathJoin rs.region_dir (regionFileName r.x r.z)) with
          | some raw =>
              match env.newRegionFile raw with
              | some rf => (rf.get_chunk_timestamp (u8cast c.x) (u8cast c.z), rs.cache, 1)
              | none => (none, rs.cache, 1)
          | none => (none, rs.cache, 1)
        else (none, rs.cache, 0)) := by
      unfold get_chunk_mtime
      rw [hs]
    constructor
    · intro hmem
      rw [hbase, if_neg hmem]
    · intro hmem
      rw [hbase, if_pos hmem]
      refine ⟨?_, ?_, ?_⟩
      · cases hopen : env.openFile (pathJoin rs.region_dir (regionFileName r.x r.z)) with
        | none => rfl
        | some raw =>
            dsimp only
            cases hnew : env.newRegionFile raw with
            | none => rfl
            | some rf => rfl
      · intro hopen
        rw [hopen]
      · intro raw hopen
        rw [hopen]
        dsimp only
        constructor
        · intro hnew
          rw [hnew]
        · intro rf hnew
          rw [hnew]

theorem get_chunk_mtime_uncached_witness :
    ((get_chunk_mtime envOpenFail rsOneRegion ⟨0, 0, 0⟩).2.1 = rsOneRegion.cache) ∧
    ((get_chunk_mtime envOpenFail rsOneRegion ⟨0, 0, 0⟩).2.2 = 1) ∧
    ((get_chunk_mtime envOpenFail rsOneRegion ⟨0, 0, 0⟩).1 = none) := by
  have h := get_chunk_mtime_uncached envOpenFail rsOneRegion ⟨0, 0, 0⟩
  have hs : split .Chunk .Region ⟨0, 0, 0⟩ = some (⟨0, 0, 0⟩, ⟨0, 0, 0⟩) := by
    rw [split_chunk_region]
    decide
  have h2 := (h.2 ⟨0, 0, 0⟩ ⟨0, 0, 0⟩ hs).2 (by decide)
  exact ⟨h.1, h2.1, h2.2.1 rfl⟩

/-! ### Theorems: world construction and filename parsing -/

theorem buildRegionsets_eq : ∀ (entries : List DirEnt) (rss : List Regionset),
    buildRegionsets entries = some rss →
    rss = (entries.filter (fun e => isRegionsetDir e)).map regionsetOf := by
  intro entries
  induction entries with
  | nil =>
      intro rss h
      simp only [buildRegionsets, Option.some.injEq] at h
      simp [← h]
  | cons e rest ih =>
      intro rss h
      unfold buildRegionsets at h
      by_cases hdir : e.isDir
      · rw [if_pos hdir] at h
        cases hrd : e.readDir with
        | none => rw [hrd] at h; simp at h
        | some files =>
            rw [hrd] at h
            dsimp only at h
            by_cases hany : files.any (fun f => decide (extension f = some "mca")) = true
            · rw [if_pos hany] at h
              cases hnew : Regionset.new e with
              | none => rw [hnew] at h; simp at h
              | some rs =>
                  rw [hnew] at h
                  dsimp only at h
                  rw [Option.map_eq_some'] at h
                  obtain ⟨l, hl, hrss⟩ := h
                  have hql : isRegionsetDir e = true := by
                    simp [isRegionsetDir, hdir, hrd, hany]
                  have hrs : rs = regionsetOf e := by
                    unfold Regionset.new at hnew
                    split_ifs at hnew
                    rw [hrd] at hnew
                    simp only [Option.some.injEq] at hnew
                    rw [← hnew]
                    unfold regionsetOf
                    rw [hrd]
                    rfl
                  rw [List.filter_cons_of_pos hql, List.map_cons, ← hrss, ih l hl, hrs]
            · rw [if_neg hany] at h
              have hql : isRegionsetDir e = false := by
                simp only [isRegionsetDir, hrd, Bool.and_eq_false_iff]
                right
                simpa using hany
              rw [List.filter_cons_of_neg (by rw [hql]; exact Bool.false_ne_true)]
              exact ih rss h
      · rw [if_neg hdir] at h
        have hql : isRegionsetDir e = false := by
          simp only [isRegionsetDir, Bool.and_eq_false_iff]
          left
          simpa using hdir
        rw [List.filter_cons_of_neg (by rw [hql]; exact Bool.false_ne_true)]
        exact ih rss h

theorem buildRegionsets_abort : ∀ (entries : List DirEnt) (e : DirEnt),
    e ∈ entries → isRegionsetDir e = true → Regionset.new e = none →
    buildRegionsets entries = none := by
  intro entries
  induction entries with
  | nil => intro e he; cases he
  | cons a rest ih =>
      intro e he hq hnew
      unfold buildRegionsets
      rcases List.mem_cons.mp he with rfl | hmem
      · have hdir : e.isDir = true := by
          simp only [isRegionsetDir, Bool.and_eq_true] at hq
          exact hq.1
        rw [if_pos hdir]
        cases hrd : e.readDir with
        | none => rfl
        | some files =>
            dsimp only
            have hany : files.any (fun f => decide (extension f = some "mca")) = true := by
              simp only [isRegionsetDir, Bool.and_eq_true] at hq
              have := hq.2
              rw [hrd] at this
              exact this
            rw [if_pos hany, hnew]
      · by_cases hdir : a.isDir
        · rw [if_pos hdir]
          cases hrd : a.readDir with
          | none => rfl
          | some files =>
              dsimp only
              by_cases hany : files.any (fun f => decide (extension f = some "mca")) = true
              · rw [if_pos hany]
                cases hnewa : Regionset.new a with
                | none => rfl
                | some rs =>
                    dsimp only
                    rw [ih e hmem hq hnew]
                    rfl
              · rw [if_neg hany]
                exact ih e hmem hq hnew
        · rw [if_neg hdir]
          exact ih e hmem hq hnew

/-- C6 counterexample: `World::new` treats a subdirectory as a Regionset
based only on the file *extension* check `extension == Some("mca")`, not the
full four-component container pattern.  A directory whose only file is
`"foo.mca"` (extension `mca`, but not matching `r.<x>.<z>.mca`) is still
constructed as a Regionset — with an empty discovered set — contradicting
the claimed "if and only if ... full container filename pattern". -/
theorem world_new_extension_counterexample :
    World.new envFooWorld "w" =
      some ⟨"w", [⟨"dim", [], LruCache.with_capacity 16⟩], .other⟩ ∧
    parseRegionFileName "foo.mca" = none ∧
    extension "foo.mca" = some "mca" := by
  refine ⟨?_, by decide, by decide⟩
  rfl

/-- C6 amended: a subdirectory is treated as a Regionset if and only if its
listing contains at least one file whose *extension* is the literal `mca`
(the full `r.<x>.<z>.mca` pattern is not required at this stage); other
entries are ignored, and a failed `Regionset` construction (or a failed
listing) aborts `World::new` entirely rather than being skipped. -/
theorem world_new_mca_rule :
    (∀ (env : WorldEnv) (p : String) (w : World), World.new env p = some w →
      ∃ entries, env.rootDir = some entries ∧
        w.regionsets = (entries.filter (fun e => isRegionsetDir e)).map regionsetOf) ∧
    (∀ (env : WorldEnv) (p : String) (entries : List DirEnt) (e : DirEnt),
      env.rootDir = some entries → e ∈ entries → isRegionsetDir e = true →
      Regionset.new e = none → World.new env p = none) := by
  constructor
  · intro env p w h
    unfold World.new at h
    split_ifs at h
    cases hld : env.levelDat with
    | none => rw [hld] at h; simp at h
    | some tag =>
        rw [hld] at h
        dsimp only at h
        cases hrd : env.rootDir with
        | none => rw [hrd] at h; simp at h
        | some entries =>
            rw [hrd] at h
            dsimp only at h
            rw [Option.map_eq_some'] at h
            obtain ⟨rss, hb, hw⟩ := h
            refine ⟨entries, rfl, ?_⟩
            rw [← hw]
            exact buildRegionsets_eq entries rss hb
  · intro env p entries e hrd hmem hq hnew
    unfold World.new
    split_ifs with hex
    · cases hld : env.levelDat with
      | none => rfl
      | some tag =>
          dsimp only
          rw [hrd]
          dsimp only
          rw [buildRegionsets_abort entries e hmem hq hnew]
          rfl
    · rfl

theorem world_new_mca_rule_witness :
    (∃ entries, envFooWorld.rootDir = some entries ∧
      (⟨"w", [⟨"dim", [], LruCache.with_capacity 16⟩], .other⟩ : World).regionsets =
        (entries.filter (fun e => isRegionsetDir e)).map regionsetOf) ∧
    (World.new ⟨true, some .other, some [⟨"dim2", true, false, some ["foo.mca"]⟩]⟩ "w"
      = none) := by
  constructor
  · exact world_new_mca_rule.1 envFooWorld "w"
      ⟨"w", [⟨"dim", [], LruCache.with_capacity 16⟩], .other⟩ (by rfl)
  · exact world_new_mca_rule.2 ⟨true, some .other, some [⟨"dim2", true, false, some ["foo.mca"]⟩]⟩
      "w" [⟨"dim2", true, false, some ["foo.mca"]⟩] ⟨"dim2", true, false, some ["foo.mca"]⟩
      rfl (by simp) (by decide) rfl

/-- C7: `Regionset` construction discovers exactly the `(x,z)` of filenames
with exactly four dot-separated components, first literally `"r"`, last
literally `"mca"`, and both middle components parsing as base-10 signed
integers; all other names are silently skipped.  `"r.3.-5.mca"` yields
`(3,-5)`; `"foo.txt"`, `"r.3.mca"`, `"r.x.5.mca"` are rejected. -/
theorem region_filename_parsing :
    (∀ name x z, parseRegionFileName name = some (x, z) ↔
      (∃ c1 c2, components name = ["r", c1, c2, "mca"] ∧
        parseI64 c1 = some x ∧ parseI64 c2 = some z)) ∧
    (∀ (e : DirEnt) files rs, e.readDir = some files → Regionset.new e = some rs →
      rs.regions = files.filterMap parseRegionFileName) ∧
    parseRegionFileName "r.3.-5.mca" = some (3, -5) ∧
    parseRegionFileName "foo.txt" = none ∧
    parseRegionFileName "r.3.mca" = none ∧
    parseRegionFileName "r.x.5.mca" = none := by
  refine ⟨?_, ?_, by decide, by decide, by decide, by decide⟩
  · intro name x z
    constructor
    · intro h
      unfold parseRegionFileName at h
      split at h
      case _ c0 c1 c2 c3 heq =>
        split_ifs at h with hcond
        · cases h1 : parseI64 c1 with
          | none => rw [h1] at h; simp at h
          | some xv =>
              cases h2 : parseI64 c2 with
              | none => rw [h1, h2] at h; simp at h
              | some zv =>
                  rw [h1, h2] at h
                  dsimp only at h
                  rw [Option.some.injEq, Prod.mk.injEq] at h
                  obtain ⟨rfl, rfl⟩ := h
                  exact ⟨c1, c2, by rw [heq, hcond.1, hcond.2], h1, h2⟩
      case _ => simp at h
    · rintro ⟨c1, c2, hcomp, h1, h2⟩
      unfold parseRegionFileName
      rw [hcomp]
      dsimp only
      rw [if_pos ⟨rfl, rfl⟩, h1, h2]
  · intro e files rs hrd hnew
    unfold Regionset.new at hnew
    split_ifs at hnew
    rw [hrd] at hnew
    simp only [Option.some.injEq] at hnew
    rw [← hnew]

theorem region_filename_parsing_witness :
    ((⟨"region", [(3, -5)], LruCache.with_capacity 16⟩ : Regionset).regions =
        ["r.3.-5.mca", "foo.txt"].filterMap parseRegionFileName) ∧
    (∃ c1 c2, components "r.3.-5.mca" = ["r", c1, c2, "mca"] ∧
        parseI64 c1 = some 3 ∧ parseI64 c2 = some (-5)) :=
  ⟨region_filename_parsing.2.1 ⟨"region", true, true, some ["r.3.-5.mca", "foo.txt"]⟩
      ["r.3.-5.mca", "foo.txt"] ⟨"region", [(3, -5)], LruCache.with_capacity 16⟩ rfl rfl,
   (region_filename_parsing.1 "r.3.-5.mca" 3 (-5)).mp (by decide)⟩

/-- C9: for a valid chunk (one whose document stores a 256-element integer
array at `Level.HeightMap`), the heightmap accessor returns exactly those 256
values unchanged, and for block column `(x,z)` with `x,z < 16` the index
`x + z*16` is a valid index into the returned vector. -/
theorem heightmap_shape :
    ∀ (c : Chunk) (data : List Int),
      (c.tag.key "Level").bind (fun t => t.key "HeightMap") = some (.intArray data) →
      data.length = 256 →
      c.get_heightmap = some data ∧ data.length = 256 ∧
      (∀ x z : Nat, x < 16 → z < 16 →
        x + z * 16 < 256 ∧ (data.get? (x + z * 16)).isSome) := by
  intro c data hfind hlen
  have hh : c.get_heightmap = some data := by
    unfold Chunk.get_heightmap
    rw [hfind]
    rfl
  refine ⟨hh, hlen, ?_⟩
  intro x z hx hz
  have hidx : x + z * 16 < 256 := by omega
  refine ⟨hidx, ?_⟩
  rw [List.get?_eq_getElem?]
  rw [List.getElem?_eq_getElem (by omega)]
  rfl

theorem heightmap_shape_witness :
    (Chunk.get_heightmap
        ⟨.compound [("Level", .compound [("HeightMap", .intArray (List.replicate 256 7))])]⟩ =
      some (List.replicate 256 7)) ∧
    (List.replicate 256 (7 : Int)).length = 256 ∧
    (∀ x z : Nat, x < 16 → z < 16 →
      x + z * 16 < 256 ∧ ((List.replicate 256 (7 : Int)).get? (x + z * 16)).isSome) :=
  heightmap_shape
    ⟨.compound [("Level", .compound [("HeightMap", .intArray (List.replicate 256 7))])]⟩
    (List.replicate 256 7) rfl (by rw [List.length_replicate])

end Overviewer
